import Mathlib

/-
Verification of the MetroCircuit ingestion/retrieval pipeline
(google-apps-script/Code.gs) against its natural-language specification.

Strings are modelled as `List Char`; JS floating point arithmetic is
modelled by exact rationals (ℚ) for the lexical scorer and by ℝ for the
cosine/hybrid similarity; wall-clock time in the batch step is modelled
by an abstract stop oracle queried once per page index, mirroring the
`elapsed > TIME_LIMIT_MS` check at the top of each loop iteration.
-/

namespace MetroCircuit

/-- Whitespace characters, the ASCII subset matched by the JavaScript
whitespace class and by `String.prototype.trim`:
space, tab, LF, VT, FF, CR. -/
def wsChar (c : Char) : Bool :=
  c == ' ' || c == '\t' || c == '\n' || c == Char.ofNat 11 || c == Char.ofNat 12 || c == '\r'

/-- JS `String.prototype.trim`: strip leading and trailing whitespace. -/
def trimChars (s : List Char) : List Char :=
  ((s.dropWhile wsChar).reverse.dropWhile wsChar).reverse

/-- JS `String.prototype.toLowerCase` (ASCII). -/
def lowerChars (s : List Char) : List Char := s.map Char.toLower

/-- Boolean list-prefix test (pattern first). -/
def isPrefixB : List Char → List Char → Bool
  | [], _ => true
  | _ :: _, [] => false
  | p :: ps, c :: cs => p == c && isPrefixB ps cs

/-- JS `String.prototype.includes`: does `w` occur as a contiguous
substring of `s`? -/
def containsSub (s w : List Char) : Bool :=
  if isPrefixB w s then true
  else
    match s with
    | [] => false
    | _ :: rest => containsSub rest w

/-- JS `String.prototype.indexOf`, as an `Option`: index of the first
occurrence of `w` in `s`. -/
def indexOfSub (s w : List Char) : Option Nat :=
  if isPrefixB w s then some 0
  else
    match s with
    | [] => none
    | _ :: rest => (indexOfSub rest w).map (fun k => k + 1)

/-- Scanner counting non-overlapping, leftmost occurrences of the
pattern `w`: after a match the remaining `w.length - 1` matched
characters are skipped via the `skip` counter (structural recursion on
the scanned list). -/
def countOccGo (w : List Char) : Nat → List Char → Nat
  | _, [] => 0
  | skip + 1, _ :: rest => countOccGo w skip rest
  | 0, c :: rest =>
    if isPrefixB w (c :: rest) then 1 + countOccGo w (w.length - 1) rest
    else countOccGo w 0 rest

/-- Number of non-overlapping, leftmost occurrences of the non-empty
pattern `w` in a list (the match count behind JS `s.split(w).length - 1`). -/
def countOcc (w s : List Char) : Nat := countOccGo w 0 s

/-- JS `s.split(word).length - 1`, the frequency count used by the
keyword scorer (for the empty separator JS splits between every char). -/
def jsSplitCount (s w : List Char) : ℤ :=
  if w = [] then (s.length : ℤ) - 1 else (countOcc w s : ℤ)

/-- Decimal rendering worker; the fuel argument only bounds the
recursion depth and is always sufficient at the call below (each digit
divides the number by 10, so `n + 1` steps more than suffice). -/
def natDigitsFuel : Nat → Nat → List Char
  | 0, _ => []
  | fuel + 1, n =>
    if n < 10 then [Char.ofNat (48 + n)]
    else natDigitsFuel fuel (n / 10) ++ [Char.ofNat (48 + n % 10)]

/-- Decimal digits of a natural number, as the characters JS number
to-string conversion produces inside `"[Page " + pageNumber + "]"`. -/
def natDigits (n : Nat) : List Char := natDigitsFuel (n + 1) n

/-- The page marker prefixed to every fragment:
`"[Page " + pageNumber + "]\n"`. -/
def pageMarker (n : Nat) : List Char :=
  "[Page ".data ++ natDigits n ++ "]".data ++ ['\n']

/-- Generic JS regex-split scanner.  `f` inspects a non-empty suffix and,
when the separator regex matches at its head, returns the number of
characters, beyond the head character, that the match consumes from the
tail.  Pieces between matches are returned (empty pieces included), as
`String.prototype.split` does for a non-zero-width separator. -/
def splitGoAux (f : List Char → Option Nat) : List Char → Nat → List Char → List (List Char)
  | [], _, acc => [acc.reverse]
  | _ :: rest, skip + 1, acc => splitGoAux f rest skip acc
  | c :: rest, 0, acc =>
    match f (c :: rest) with
    | some m => acc.reverse :: splitGoAux f rest m []
    | none => splitGoAux f rest 0 (c :: acc)

/-- Entry point of the split scanner. -/
def splitGo (f : List Char → Option Nat) (s : List Char) : List (List Char) :=
  splitGoAux f s 0 []

/-- Index of the last newline character in a list, if any. -/
def lastNewlineIdx (l : List Char) : Option Nat :=
  match l.reverse.findIdx? (fun c => c == '\n') with
  | some k => some (l.length - 1 - k)
  | none => none

/-- Greedy match of the page-break separator regex (a newline, then
greedily as much whitespace as possible, backtracking to a final
newline) at the head of the suffix: returns how many characters beyond
the leading newline the match consumes. -/
def blanklineMatch (l : List Char) : Option Nat :=
  match l with
  | '\n' :: rest => (lastNewlineIdx (rest.takeWhile wsChar)).map (fun j => j + 1)
  | _ => none

/-- Match of the single-newline separator regex at the head of a suffix. -/
def newlineMatch (l : List Char) : Option Nat :=
  match l with
  | '\n' :: _ => some 0
  | _ => none

/-- Case-insensitive prefix test: is `p` (already lowercase) a prefix of
the lowercasing of `l`? -/
def lowerPrefixB : List Char → List Char → Bool
  | [], _ => true
  | _ :: _, [] => false
  | p :: ps, c :: cs => p == c.toLower && lowerPrefixB ps cs

/-- The plain alternatives of the engineering-keyword lookahead regex in
`engineeringChunkPage` (lowercased; matched case-insensitively). -/
def kwPlain : List (List Char) :=
  ["panel".data, "feeder".data, "transformer".data, "section".data, "drawing".data,
   "schedule".data, "sld".data, "circuit".data, "busbar".data, "switchgear".data,
   "substation".data, "breaker".data, "relay".data, "motor".data, "vcb".data,
   "acb".data, "mccb".data]

/-- Does one of the section keywords match (case-insensitively) at the
head of `l`?  The alternatives `CT` and `PT` additionally require a
following whitespace character. -/
def keywordAt (l : List Char) : Bool :=
  kwPlain.any (fun p => lowerPrefixB p l) ||
  (match l with
   | c1 :: c2 :: c3 :: _ =>
     (c1.toLower == 'c' || c1.toLower == 'p') && c2.toLower == 't' && wsChar c3
   | _ => false)

/-- Scanner for the zero-width-lookahead keyword split: a split point is
every position (other than position 0) where a keyword matches; the
accumulator holds the current piece reversed. -/
def kwGo : List Char → List Char → List (List Char)
  | [], acc => [acc.reverse]
  | c :: rest, acc =>
    if keywordAt (c :: rest) then acc.reverse :: kwGo rest [c]
    else kwGo rest (c :: acc)

/-- `pageText.split(lookahead-keyword-regex)`: split before every
keyword occurrence, keeping the keyword with the following piece. -/
def splitKeywordSections : List Char → List (List Char)
  | [] => [[]]
  | c :: rest => kwGo rest [c]

/-- Chunking configuration constants from the source. -/
def CHUNK_TARGET_SIZE : Nat := 800

/-- High overlap kept between adjacent fragments. -/
def CHUNK_OVERLAP : Nat := 300

/-- A chunk fragment produced by the segmenter: page-marked text plus
its page number. -/
structure ChunkFrag where
  text : List Char
  pageNumber : Nat
deriving DecidableEq, Repr

/-- Flushing the accumulation buffer as one fragment. -/
def mkFrag (n : Nat) (buffer : List Char) : ChunkFrag :=
  { text := pageMarker n ++ trimChars buffer, pageNumber := n }

/-- Two newline characters, the separator the accumulation loop inserts. -/
def nl2 : List Char := ['\n', '\n']

/-- The greedy accumulation loop of `engineeringChunkPage`: sections are
gathered into a buffer below the target size; on overflow the buffer is
flushed as one fragment and the next buffer starts with the trailing
overlap window. -/
def accumulate (n : Nat) : List (List Char) → List Char → List ChunkFrag
  | [], buffer => if trimChars buffer ≠ [] then [mkFrag n buffer] else []
  | sec :: rest, buffer =>
    let trimmed := trimChars sec
    if trimmed = [] then accumulate n rest buffer
    else if buffer.length + trimmed.length < CHUNK_TARGET_SIZE then
      accumulate n rest (buffer ++ nl2 ++ trimmed)
    else
      let flushed := if trimChars buffer ≠ [] then [mkFrag n buffer] else []
      let overlap := if CHUNK_OVERLAP < buffer.length
        then buffer.drop (buffer.length - CHUNK_OVERLAP) else []
      flushed ++ accumulate n rest (overlap ++ nl2 ++ trimmed)

/-- Fixed-size windows used to hard-split an oversized fragment: steps of
`CHUNK_TARGET_SIZE`, each window extending `CHUNK_TARGET_SIZE + 200`
characters (a smaller, 200-char overlap). -/
def windowsFuel : Nat → List Char → List (List Char)
  | 0, _ => []
  | _, [] => []
  | fuel + 1, t => t.take (CHUNK_TARGET_SIZE + 200) :: windowsFuel fuel (t.drop CHUNK_TARGET_SIZE)

/-- The hard-split loop `for (k = 0; k < len; k += CHUNK_TARGET_SIZE)`;
the fuel `t.length` always dominates the number of windows, since each
step drops `CHUNK_TARGET_SIZE ≥ 1` characters. -/
def windowsGo (t : List Char) : List (List Char) := windowsFuel t.length t

/-- The three-tier section split of `engineeringChunkPage`: keyword
lookahead split, blank-line fallback, single-line fallback (each
fallback fires when the previous split yields at most one piece). -/
def sectionsOf (pageText : List Char) : List (List Char) :=
  let s1 := splitKeywordSections pageText
  let s2 := if s1.length ≤ 1 then splitGo blanklineMatch pageText else s1
  if s2.length ≤ 1 then splitGo newlineMatch pageText else s2

/-- The fragments accumulated from the sections, before oversize
splitting. -/
def preChunks (pageText : List Char) (n : Nat) : List ChunkFrag :=
  accumulate n (sectionsOf pageText) []

/-- The fragment list after the oversize pass: any fragment longer than
2000 characters is replaced by its fixed-size windows. -/
def finalChunksOf (pageText : List Char) (n : Nat) : List ChunkFrag :=
  (preChunks pageText n).flatMap (fun c =>
    if 2000 < c.text.length then
      (windowsGo c.text).map (fun w => { text := w, pageNumber := c.pageNumber })
    else [c])

/-- The segmenter `engineeringChunkPage(pageText, pageNumber)`:
keyword split, blank-line fallback, single-line fallback; greedy
accumulation with overlap; hard-split of fragments longer than 2000
characters; and a final guard ensuring at least one fragment. -/
def engineeringChunkPage (pageText : List Char) (pageNumber : Nat) : List ChunkFrag :=
  if (trimChars pageText).length < 10 then []
  else if finalChunksOf pageText pageNumber = [] ∧ trimChars pageText ≠ [] then
    [{ text := pageMarker pageNumber ++ pageText.take CHUNK_TARGET_SIZE,
       pageNumber := pageNumber }]
  else finalChunksOf pageText pageNumber

/-- The persisted ingestion state `BATCH_STATE_<docId>` (document id and
start-time omitted: they play no role in the control flow). -/
structure BatchState where
  totalPages : Nat
  processedPages : Nat
  totalChunks : Nat
deriving DecidableEq, Repr

/-- The page loop of `processBatchAction`.  `stop` abstracts the
wall-clock guard `elapsed > TIME_LIMIT_MS`, queried once at the top of
each iteration for page index `p`; on `true` the loop breaks.  A page
whose trimmed text has fewer than 5 characters is counted and skipped;
otherwise it is segmented and one chunk row is appended per fragment.
Returns `(pagesProcessedThisBatch, chunk rows appended)`. -/
def batchLoop (stop : Nat → Bool) : List (List Char) → Nat → Nat × List ChunkFrag
  | [], _ => (0, [])
  | page :: rest, p =>
    if stop p then (0, [])
    else if (trimChars page).length < 5 then
      let r := batchLoop stop rest (p + 1)
      (r.1 + 1, r.2)
    else
      let pageChunks := engineeringChunkPage page (p + 1)
      let r := batchLoop stop rest (p + 1)
      (r.1 + 1, pageChunks ++ r.2)

/-- Observable outcome of one `process_batch` invocation. -/
structure BatchOutcome where
  finalState : BatchState
  statePersisted : Bool
  docStatus : Option String
  chunksAppended : List ChunkFrag
  respStatus : String
deriving DecidableEq, Repr

/-- One invocation of `processBatchAction` for a document whose persisted
state is `st` and whose persisted page groups reconstruct to `allPages`.
If the page list is empty the state is cleaned up and the document is
reported indexed; otherwise iteration starts at index
`st.processedPages`, the counters are advanced by this batch's work, and
the step either completes (cleanup, `status = indexed`) or persists the
partial state and reports `in_progress`. -/
def processBatchAction (stop : Nat → Bool) (st : BatchState)
    (allPages : List (List Char)) : BatchOutcome :=
  if allPages.length = 0 then
    { finalState := st, statePersisted := false, docStatus := some "indexed",
      chunksAppended := [], respStatus := "indexed" }
  else
    let r := batchLoop stop (allPages.drop st.processedPages) st.processedPages
    let st2 : BatchState :=
      { totalPages := st.totalPages,
        processedPages := st.processedPages + r.1,
        totalChunks := st.totalChunks + r.2.length }
    if allPages.length ≤ st2.processedPages then
      { finalState := st2, statePersisted := false, docStatus := some "indexed",
        chunksAppended := r.2, respStatus := "indexed" }
    else
      { finalState := st2, statePersisted := true, docStatus := none,
        chunksAppended := r.2, respStatus := "in_progress" }

/-- Observable outcome of one `process_document` invocation. -/
structure ProcDocOutcome where
  docStatus : String
  chunksCreated : List ChunkFrag
  isError : Bool
deriving DecidableEq, Repr

/-- The `process_document` action after text extraction succeeded or
failed: `text` is the extracted text, `pagesOf` the page-splitting
pre-pass (`splitIntoPages`, an external regex cascade, abstracted as a
parameter).  Extracted text shorter than 10 characters after trimming
moves the document to `error` without touching chunks; otherwise the
initial batch state is written and the first batch step runs
immediately. -/
def processDocumentAction (stop : Nat → Bool)
    (pagesOf : List Char → List (List Char)) (text : List Char) : ProcDocOutcome :=
  if (trimChars text).length < 10 then
    { docStatus := "error", chunksCreated := [], isError := true }
  else
    let pages := pagesOf text
    let st0 : BatchState := { totalPages := pages.length, processedPages := 0, totalChunks := 0 }
    let b := processBatchAction stop st0 pages
    { docStatus := b.docStatus.getD "processing", chunksCreated := b.chunksAppended,
      isError := false }

/-- Per-word containment and frequency bonus of the keyword scorer. -/
def wordBonus (contentLower w : List Char) : ℚ :=
  if containsSub contentLower w then
    (1 / 10) +
      (let count := jsSplitCount contentLower w
       if 1 < count then (3 / 100) * ((min (count - 1) 5 : ℤ) : ℚ) else 0)
  else 0

/-- Smallest element of a non-empty position list (0 for the empty list). -/
def minPos : List Nat → Nat
  | [] => 0
  | x :: xs => xs.foldl Nat.min x

/-- Largest element of a position list. -/
def maxPos (l : List Nat) : Nat := l.foldl Nat.max 0

/-- The lexical relevance scorer `keywordScore(content, queryWords,
fullQuery)`: exact-phrase weight, per-word weight with saturating
frequency bonus, coverage ratio, bigram containment, proximity bonus;
the sum is clamped to 1. -/
def keywordScore (content : List Char) (queryWords : List (List Char))
    (fullQuery : List Char) : ℚ :=
  let cl := lowerChars content
  let s1 : ℚ := if containsSub cl fullQuery then 1 / 2 else 0
  let matched := (queryWords.filter (fun w => containsSub cl w)).length
  let s2 : ℚ := (queryWords.map (fun w => wordBonus cl w)).sum
  let s3 : ℚ :=
    if 0 < queryWords.length then ((matched : ℚ) / (queryWords.length : ℚ)) * (1 / 5) else 0
  let s4 : ℚ := ((queryWords.zip queryWords.tail).map (fun pr =>
    if containsSub cl (pr.1 ++ [' '] ++ pr.2) then (3 / 20 : ℚ) else 0)).sum
  let s5 : ℚ :=
    if 2 ≤ matched then
      let positions := queryWords.filterMap (fun w => indexOfSub cl w)
      if 2 ≤ positions.length then
        let span := maxPos positions - minPos positions
        (if span < 200 then (1 / 10 : ℚ) else 0) + (if span < 100 then (1 / 10 : ℚ) else 0)
      else 0
    else 0
  min (s1 + s2 + s3 + s4 + s5) 1

open Classical in
/-- The cosine similarity `cosineSimilarity(a, b)`: 0 on dimension
mismatch, `dot / (sqrt(normA) * sqrt(normB))` otherwise, with an
explicit 0 when the denominator is 0. -/
noncomputable def cosineSimilarity (a b : List ℝ) : ℝ :=
  if a.length ≠ b.length then 0
  else if Real.sqrt ((a.map (fun x => x * x)).sum) *
      Real.sqrt ((b.map (fun x => x * x)).sum) = 0 then 0
  else ((List.zipWith (fun x y => x * y) a b).sum) /
    (Real.sqrt ((a.map (fun x => x * x)).sum) * Real.sqrt ((b.map (fun x => x * x)).sum))

/-- The per-chunk score of `handleQuery`: when a query embedding was
obtained, the embedding term (cosine similarity when the stored chunk
embedding is non-empty and of equal dimension, else 0) is combined as
`0.6·emb + 0.4·lexical`; without a query embedding the lexical score is
used alone. -/
noncomputable def hybridScore (queryEmb chunkEmb : List ℝ) (kwScore : ℚ) : ℝ :=
  let embScore : ℝ :=
    if 0 < queryEmb.length ∧ 0 < chunkEmb.length ∧ chunkEmb.length = queryEmb.length then
      cosineSimilarity queryEmb chunkEmb
    else 0
  if 0 < queryEmb.length then embScore * 0.6 + (kwScore : ℝ) * 0.4
  else (kwScore : ℝ)

/-- A scored candidate record as built by `handleQuery` (fields not
read by the re-ranker are omitted). -/
structure Match where
  id : Nat
  content : List Char
  pageNumber : Nat
  similarity : ℚ
deriving DecidableEq, Repr

/-- Default candidate record used by the total indexing helper `getD`
(in-range reads only ever occur on the modelled paths). -/
def defaultMatch : Match := { id := 0, content := [], pageNumber := 0, similarity := 0 }

/-- The re-rank LLM interaction, abstracted: the call failed
(`callGemini` returned null), the response did not parse as a JSON
array, or it parsed as an array whose entries are integers or
non-numeric values. -/
inductive RerankResp where
  | failed : RerankResp
  | unparsable : RerankResp
  | arr : List (Option ℤ) → RerankResp

/-- The index-validation loop of `geminiRerank`, modelling the JS
in-place mutation `const match = candidates[idx]; match.similarity = …;
reranked.push(match)`: the array slot `candidates[idx]` and every
pushed reference alias one record, so the candidate array is threaded
as state (updated with `List.set`) and the growing result list stores
the chosen indices; the pushed references are resolved against the
final array state when the loop returns.  Non-numeric and out-of-range
entries are skipped; each valid index overwrites the shared record's
similarity with `Math.round((1 - len·0.05)·1000)/1000`, breaking once
`topN` references are collected. -/
def rerankGo (topN : Nat) : List (Option ℤ) → List Match → List Nat → List Match × List Nat
  | [], cands, acc => (cands, acc)
  | e :: rest, cands, acc =>
    match e with
    | none => rerankGo topN rest cands acc
    | some i =>
      if h : 0 ≤ i ∧ i < (cands.length : ℤ) then
        let m := cands.get ⟨i.toNat, by omega⟩
        let cands2 := cands.set i.toNat
          { m with similarity :=
              ((round ((1 - (acc.length : ℚ) * (5 / 100)) * 1000) : ℤ) : ℚ) / 1000 }
        let acc2 := acc ++ [i.toNat]
        if topN ≤ acc2.length then (cands2, acc2) else rerankGo topN rest cands2 acc2
      else rerankGo topN rest cands acc

/-- The re-ranking agent `geminiRerank(query, candidates, topN)`: on a
parsed index array with at least one valid entry, the pushed references
resolved against the final candidate state (so duplicate indices yield
aliased entries); in every other case (call failure, unparsable output,
no valid index — paths on which no mutation has happened) the original
score-ordered `candidates.slice(0, topN)`. -/
def geminiRerank (resp : RerankResp) (candidates : List Match) (topN : Nat) : List Match :=
  match resp with
  | RerankResp.arr idxs =>
    let r := rerankGo topN idxs candidates []
    let reranked := r.2.map (fun j => r.1.getD j defaultMatch)
    if 0 < reranked.length then reranked else candidates.take topN
  | _ => candidates.take topN

/-- The router LLM response after JSON parsing: intent tag plus an
optional keyword list (absent when the JSON lacks the field). -/
structure RouterParsed where
  intent : String
  expandedKeywords : Option (List String)

/-- Router result `{intent, expandedKeywords}`. -/
structure RouterResult where
  intent : String
  expandedKeywords : List String
deriving DecidableEq, Repr

/-- First-occurrence deduplication, the semantics of the JS idiom
`[...new Set(list)]`. -/
def dedupGo : List String → List String → List String
  | [], _ => []
  | x :: rest, seen =>
    if x ∈ seen then dedupGo rest seen else x :: dedupGo rest (x :: seen)

/-- JS `[...new Set(l)]`. -/
def jsSetDedup (l : List String) : List String := dedupGo l []

/-- Static domain terms injected for the detail-lookup intent. -/
def cableTerms : List String :=
  ["core", "sqmm", "wire", "cable", "armor", "screen", "rating", "current"]

/-- Static domain terms injected for the diagram-structure intent. -/
def schematicTerms : List String :=
  ["SLD", "drawing", "circuit", "connection", "feeder", "breaker", "busbar",
   "interconnect", "schematic"]

/-- The router agent `agentRouter(query)`, abstracted over the parsed
LLM response (`none` covers both a failed `callGemini` call and an
unparsable JSON body, which the catch-all turns into the fallback):
on success the static keyword-injection rule augments the expansion for
the `CABLE_DETAILS` and `SCHEMATIC` intents; on failure the fallback
`{intent: TEXT_ANSWER, expandedKeywords: []}` is returned. -/
def agentRouter (llm : Option RouterParsed) : RouterResult :=
  match llm with
  | none => { intent := "TEXT_ANSWER", expandedKeywords := [] }
  | some p =>
    let kw := p.expandedKeywords.getD []
    if p.intent = "CABLE_DETAILS" then
      { intent := p.intent, expandedKeywords := jsSetDedup (kw ++ cableTerms) }
    else if p.intent = "SCHEMATIC" then
      { intent := p.intent, expandedKeywords := jsSetDedup (kw ++ schematicTerms) }
    else
      { intent := p.intent, expandedKeywords := kw }

/-- The valid index occurrences of a re-rank response: numeric entries
that are in range, in response order, duplicates kept. -/
def validIndices (candidates : List Match) (idxs : List (Option ℤ)) : List Nat :=
  idxs.filterMap (fun e =>
    match e with
    | none => none
    | some i => if 0 ≤ i ∧ i < (candidates.length : ℤ) then some i.toNat else none)

/-- The synthetic score assigned to the re-ranked entry at position `i`:
`Math.round((1 - i·0.05)·1000)/1000`. -/
def syntheticScore (i : Nat) : ℚ :=
  ((round ((1 - (i : ℚ) * (5 / 100)) * 1000) : ℤ) : ℚ) / 1000

/-- The cumulative effect of the mutations the validation loop
performs: walking the chosen indices from output position `pos`, each
step overwrites the similarity of slot `j` with the synthetic score of
the current position, so a later duplicate of `j` overwrites an
earlier score, exactly as the shared JS record does. -/
def applyScoresGo : List Match → Nat → List Nat → List Match
  | cands, _, [] => cands
  | cands, pos, j :: js =>
    applyScoresGo
      (cands.set j { cands.getD j defaultMatch with similarity := syntheticScore pos })
      (pos + 1) js

/- ------------------------------------------------------------------
Helper lemmas
------------------------------------------------------------------ -/

theorem dedupGo_mem (x : String) :
    ∀ (l seen : List String), x ∈ dedupGo l seen ↔ x ∈ l ∧ x ∉ seen := by
  intro l
  induction l with
  | nil => intro seen; simp [dedupGo]
  | cons y rest ih =>
    intro seen
    simp only [dedupGo]
    split
    · rename_i hy
      rw [ih]
      constructor
      · rintro ⟨hr, hs⟩
        exact ⟨List.mem_cons_of_mem _ hr, hs⟩
      · rintro ⟨hm, hs⟩
        rcases List.mem_cons.mp hm with rfl | h
        · exact absurd hy hs
        · exact ⟨h, hs⟩
    · rename_i hy
      constructor
      · intro hm
        rcases List.mem_cons.mp hm with rfl | h
        · exact ⟨List.mem_cons_self _ _, hy⟩
        · rcases (ih _).mp h with ⟨hr, hs⟩
          exact ⟨List.mem_cons_of_mem _ hr,
            fun hx => hs (List.mem_cons_of_mem _ hx)⟩
      · rintro ⟨hm, hs⟩
        by_cases hxy : x = y
        · exact hxy ▸ List.mem_cons_self _ _
        · rcases List.mem_cons.mp hm with h | h
          · exact absurd h hxy
          · refine List.mem_cons_of_mem _ ((ih _).mpr ⟨h, fun hx => ?_⟩)
            rcases List.mem_cons.mp hx with h2 | h2
            · exact hxy h2
            · exact hs h2

theorem jsSetDedup_mem (x : String) (l : List String) : x ∈ jsSetDedup l ↔ x ∈ l := by
  simp [jsSetDedup, dedupGo_mem]

theorem batchLoop_count_le (stop : Nat → Bool) :
    ∀ (pages : List (List Char)) (p : Nat), (batchLoop stop pages p).1 ≤ pages.length := by
  intro pages
  induction pages with
  | nil => intro p; simp [batchLoop]
  | cons page rest ih =>
    intro p
    simp only [batchLoop, List.length_cons]
    split
    · simp
    · split
      · exact Nat.succ_le_succ (ih (p + 1))
      · exact Nat.succ_le_succ (ih (p + 1))

theorem accumulate_pageNumber (n : Nat) :
    ∀ (secs : List (List Char)) (buffer : List Char),
      ∀ c ∈ accumulate n secs buffer, c.pageNumber = n := by
  intro secs
  induction secs with
  | nil =>
    intro buffer c hc
    simp only [accumulate] at hc
    split at hc
    · rcases List.mem_singleton.mp hc with rfl; rfl
    · exact absurd hc (List.not_mem_nil c)
  | cons sec rest ih =>
    intro buffer c hc
    simp only [accumulate] at hc
    split at hc
    · exact ih _ c hc
    · split at hc
      · exact ih _ c hc
      · rcases List.mem_append.mp hc with h | h
        · split at h
          · rcases List.mem_singleton.mp h with rfl; rfl
          · exact absurd h (List.not_mem_nil c)
        · exact ih _ c h

theorem finalChunksOf_pageNumber (t : List Char) (n : Nat) :
    ∀ c ∈ finalChunksOf t n, c.pageNumber = n := by
  intro c hc
  rcases List.mem_flatMap.mp hc with ⟨c0, hc0, hmem⟩
  have hc0n : c0.pageNumber = n := accumulate_pageNumber n _ [] c0 hc0
  split at hmem
  · rcases List.mem_map.mp hmem with ⟨w, _, rfl⟩
    simpa using hc0n
  · rcases List.mem_singleton.mp hmem with rfl; exact hc0n

theorem engineeringChunkPage_pageNumber (t : List Char) (n : Nat) :
    ∀ c ∈ engineeringChunkPage t n, c.pageNumber = n := by
  intro c hc
  unfold engineeringChunkPage at hc
  split at hc
  · exact absurd hc (List.not_mem_nil c)
  · split at hc
    · rcases List.mem_singleton.mp hc with rfl; rfl
    · exact finalChunksOf_pageNumber t n c hc

theorem batchLoop_chunks_pageNumber (stop : Nat → Bool) :
    ∀ (pages : List (List Char)) (p : Nat),
      ∀ c ∈ (batchLoop stop pages p).2, p < c.pageNumber := by
  intro pages
  induction pages with
  | nil => intro p c hc; simp [batchLoop] at hc
  | cons page rest ih =>
    intro p c hc
    simp only [batchLoop] at hc
    split at hc
    · exact absurd hc (List.not_mem_nil c)
    · split at hc
      · exact Nat.lt_of_succ_lt (ih (p + 1) c hc)
      · rcases List.mem_append.mp hc with h | h
        · have := engineeringChunkPage_pageNumber page (p + 1) c h
          omega
        · exact Nat.lt_of_succ_lt (ih (p + 1) c h)

theorem agentRouter_cable (p : RouterParsed) (hp : p.intent = "CABLE_DETAILS") :
    (agentRouter (some p)).expandedKeywords =
      jsSetDedup (p.expandedKeywords.getD [] ++ cableTerms) := by
  simp [agentRouter, hp]

theorem agentRouter_schematic (p : RouterParsed) (hp : p.intent = "SCHEMATIC") :
    (agentRouter (some p)).expandedKeywords =
      jsSetDedup (p.expandedKeywords.getD [] ++ schematicTerms) := by
  simp [agentRouter, hp]

theorem processBatchAction_finalState (stop : Nat → Bool) (st : BatchState)
    (pages : List (List Char)) (h : pages.length ≠ 0) :
    (processBatchAction stop st pages).finalState =
      { totalPages := st.totalPages,
        processedPages :=
          st.processedPages + (batchLoop stop (pages.drop st.processedPages) st.processedPages).1,
        totalChunks :=
          st.totalChunks +
            (batchLoop stop (pages.drop st.processedPages) st.processedPages).2.length } := by
  unfold processBatchAction
  rw [if_neg h]
  dsimp only
  split <;> rfl

theorem processBatchAction_chunks (stop : Nat → Bool) (st : BatchState)
    (pages : List (List Char)) (h : pages.length ≠ 0) :
    (processBatchAction stop st pages).chunksAppended =
      (batchLoop stop (pages.drop st.processedPages) st.processedPages).2 := by
  unfold processBatchAction
  rw [if_neg h]
  dsimp only
  split <;> rfl

/- ------------------------------------------------------------------
Claim theorems
------------------------------------------------------------------ -/

/-- C1: one batch step never decreases the persisted `processedPages`
counter, never pushes it beyond `totalPages` (given the persisted page
list matches `totalPages` and the incoming counter respects the bound),
and, since iteration starts at the persisted counter, every chunk row
appended in this invocation belongs to a page strictly beyond the pages
already counted — no counted page is reprocessed or re-chunked. -/
theorem c1_batch_step_invariants (stop : Nat → Bool) (st : BatchState)
    (pages : List (List Char)) :
    st.processedPages ≤ (processBatchAction stop st pages).finalState.processedPages ∧
    (pages.length = st.totalPages → st.processedPages ≤ st.totalPages →
      (processBatchAction stop st pages).finalState.processedPages ≤ st.totalPages) ∧
    (∀ c ∈ (processBatchAction stop st pages).chunksAppended,
      st.processedPages < c.pageNumber) := by
  by_cases h : pages.length = 0
  · unfold processBatchAction
    rw [if_pos h]
    exact ⟨le_refl _, fun _ h2 => h2, by simp⟩
  · refine ⟨?_, ?_, ?_⟩
    · rw [processBatchAction_finalState stop st pages h]
      exact Nat.le_add_right _ _
    · intro h1 h2
      rw [processBatchAction_finalState stop st pages h]
      have hc := batchLoop_count_le stop (pages.drop st.processedPages) st.processedPages
      rw [List.length_drop] at hc
      simp only []
      omega
    · intro c hc
      rw [processBatchAction_chunks stop st pages h] at hc
      exact batchLoop_chunks_pageNumber stop _ _ c hc

/-- Witness for C1 at a concrete one-page document. -/
theorem c1_witness :
    (processBatchAction (fun _ => false) ⟨1, 0, 0⟩ [['a', 'b']]).finalState.processedPages ≤ 1 ∧
    0 ≤ (processBatchAction (fun _ => false) ⟨1, 0, 0⟩ [['a', 'b']]).finalState.processedPages :=
  ⟨(c1_batch_step_invariants (fun _ => false) ⟨1, 0, 0⟩ [['a', 'b']]).2.1 (by decide) (by decide),
   (c1_batch_step_invariants (fun _ => false) ⟨1, 0, 0⟩ [['a', 'b']]).1⟩

/-- C3 counterexample: the input "abc" is non-empty, yet the segmenter
returns no fragment at all, because any page whose trimmed text is
shorter than 10 characters is rejected up front. -/
theorem c3_counterexample :
    (['a', 'b', 'c'] : List Char) ≠ [] ∧ engineeringChunkPage ['a', 'b', 'c'] 1 = [] := by
  constructor
  · decide
  · decide

/-- C3 (amended): for any input whose trimmed text has at least 10
characters, the segmenter returns at least one fragment. -/
theorem c3_amended (t : List Char) (n : Nat) (h : 10 ≤ (trimChars t).length) :
    engineeringChunkPage t n ≠ [] := by
  unfold engineeringChunkPage
  rw [if_neg (by omega)]
  split
  · simp
  · rename_i hcond
    intro hnil
    apply hcond
    refine ⟨hnil, ?_⟩
    intro htr
    rw [htr] at h
    simp at h

/-- Witness for the amended C3 on a concrete page text. -/
theorem c3_witness :
    engineeringChunkPage "hello world page text".data 1 ≠ [] :=
  c3_amended _ 1 (by decide)

/-- C6: when the re-rank LLM call fails outright or its response does
not parse as a JSON array, the re-ranking step returns exactly the
first `topN` candidates of the pre-rerank score-ordered list, in
unchanged order. -/
theorem c6_rerank_fallback (candidates : List Match) (topN : Nat) :
    geminiRerank RerankResp.failed candidates topN = candidates.take topN ∧
    geminiRerank RerankResp.unparsable candidates topN = candidates.take topN :=
  ⟨rfl, rfl⟩

/-- C8: extracted text that is empty or below the 10-character minimum
moves the document to `error` status and creates no chunk in that
invocation. -/
theorem c8_empty_extraction_error (stop : Nat → Bool)
    (pagesOf : List Char → List (List Char)) (text : List Char)
    (h : (trimChars text).length < 10) :
    (processDocumentAction stop pagesOf text).docStatus = "error" ∧
    (processDocumentAction stop pagesOf text).chunksCreated = [] := by
  unfold processDocumentAction
  rw [if_pos h]
  exact ⟨rfl, rfl⟩

/-- Witness for C8 at the empty extracted text. -/
theorem c8_witness :
    (processDocumentAction (fun _ => false) (fun _ => []) []).docStatus = "error" ∧
    (processDocumentAction (fun _ => false) (fun _ => []) []).chunksCreated = [] :=
  c8_empty_extraction_error _ _ _ (by decide)

/-- C9: whenever the router LLM response parses with intent
`CABLE_DETAILS` (detail lookup) or `SCHEMATIC` (diagram structure), the
static domain-standard terms are injected into the returned
`expandedKeywords`; the injection rule is applied to whatever intent
results, so on any LLM failure the router still returns the general
fallback `{intent: TEXT_ANSWER, expandedKeywords: []}` (to which the
rule adds nothing). -/
theorem c9_router_static_injection :
    (∀ p : RouterParsed, p.intent = "CABLE_DETAILS" →
      ∀ t ∈ cableTerms, t ∈ (agentRouter (some p)).expandedKeywords) ∧
    (∀ p : RouterParsed, p.intent = "SCHEMATIC" →
      ∀ t ∈ schematicTerms, t ∈ (agentRouter (some p)).expandedKeywords) ∧
    agentRouter none = { intent := "TEXT_ANSWER", expandedKeywords := [] } := by
  refine ⟨?_, ?_, rfl⟩
  · intro p hp t ht
    rw [agentRouter_cable p hp, jsSetDedup_mem]
    exact List.mem_append_right _ ht
  · intro p hp t ht
    rw [agentRouter_schematic p hp, jsSetDedup_mem]
    exact List.mem_append_right _ ht

/-- Witness for C9 at concrete parsed intents. -/
theorem c9_witness :
    "core" ∈ (agentRouter (some ⟨"CABLE_DETAILS", none⟩)).expandedKeywords ∧
    "SLD" ∈ (agentRouter (some ⟨"SCHEMATIC", none⟩)).expandedKeywords :=
  ⟨c9_router_static_injection.1 ⟨"CABLE_DETAILS", none⟩ rfl "core" (by decide),
   c9_router_static_injection.2.1 ⟨"SCHEMATIC", none⟩ rfl "SLD" (by decide)⟩

/-- C10: a page whose trimmed text has fewer than 5 characters is
counted toward the pages processed this batch while appending no chunk
row; consequently (concrete scenario) a document consisting only of
such pages completes with `processedPages = totalPages`, zero chunks,
and status `indexed`. -/
theorem c10_short_pages_counted_without_chunks :
    (∀ (stop : Nat → Bool) (p : Nat) (page : List Char) (rest : List (List Char)),
      stop p = false → (trimChars page).length < 5 →
      batchLoop stop (page :: rest) p =
        ((batchLoop stop rest (p + 1)).1 + 1, (batchLoop stop rest (p + 1)).2)) ∧
    processBatchAction (fun _ => false) ⟨2, 0, 0⟩ [['a', 'b'], ['c', 'd']] =
      { finalState := ⟨2, 2, 0⟩, statePersisted := false, docStatus := some "indexed",
        chunksAppended := [], respStatus := "indexed" } := by
  constructor
  · intro stop p page rest hstop htrim
    simp [batchLoop, hstop, htrim]
  · decide

/-- Evaluation: the lowercased content "busbar" contains the query. -/
theorem bbContains :
    containsSub (lowerChars ['b', 'u', 's', 'b', 'a', 'r']) ['b', 'u', 's', 'b', 'a', 'r'] = true := by
  decide

/-- Evaluation: the word "busbar" occurs once in the content. -/
theorem bbCount :
    jsSplitCount (lowerChars ['b', 'u', 's', 'b', 'a', 'r']) ['b', 'u', 's', 'b', 'a', 'r'] = 1 := by
  decide

/-- Evaluation: the per-word bonus for "busbar" is 0.1. -/
theorem bbWordBonus :
    wordBonus (lowerChars ['b', 'u', 's', 'b', 'a', 'r']) ['b', 'u', 's', 'b', 'a', 'r'] = 1 / 10 := by
  unfold wordBonus
  rw [if_pos bbContains]
  dsimp only
  rw [bbCount]
  norm_num

/-- Evaluation: exactly one query word matches the content. -/
theorem bbFilter :
    (List.filter (fun w => containsSub (lowerChars ['b', 'u', 's', 'b', 'a', 'r']) w)
      [['b', 'u', 's', 'b', 'a', 'r']]).length = 1 := by
  decide

/-- Evaluation: the lexical score of content "busbar" for query
"busbar" is 0.8 (0.5 phrase + 0.1 word + 0.2 coverage). -/
theorem bbKeywordScore :
    keywordScore ['b', 'u', 's', 'b', 'a', 'r'] [['b', 'u', 's', 'b', 'a', 'r']]
      ['b', 'u', 's', 'b', 'a', 'r'] = 4 / 5 := by
  unfold keywordScore
  dsimp only
  rw [if_pos bbContains, bbFilter]
  simp only [List.map_cons, List.map_nil, bbWordBonus, List.sum_cons, List.sum_nil,
    List.zip_nil_right, List.length_cons, List.length_nil]
  norm_num [min_def]

/-- C2 counterexample: for the chunk "busbar" with empty stored
embedding and the query "busbar" whose embedding was obtained
(a one-dimensional query embedding), the retrieval score is
0.6·0 + 0.4·0.8 = 0.32, not the lexical score 0.8 — the empty-embedding
chunk is penalized whenever a query embedding exists. -/
theorem c2_counterexample :
    hybridScore [1] []
        (keywordScore ['b', 'u', 's', 'b', 'a', 'r'] [['b', 'u', 's', 'b', 'a', 'r']]
          ['b', 'u', 's', 'b', 'a', 'r']) ≠
      ((keywordScore ['b', 'u', 's', 'b', 'a', 'r'] [['b', 'u', 's', 'b', 'a', 'r']]
          ['b', 'u', 's', 'b', 'a', 'r'] : ℚ) : ℝ) := by
  rw [bbKeywordScore]
  unfold hybridScore
  norm_num

/-- C2 (amended): for a chunk with empty stored embedding, the score is
the lexical score exactly when no query embedding was obtained, and
0.4 times the lexical score when one was (the embedding term
contributes 0, but the lexical part is down-weighted). -/
theorem c2_empty_embedding_score (queryEmb chunkEmb : List ℝ) (kw : ℚ)
    (h : chunkEmb = []) :
    hybridScore queryEmb chunkEmb kw =
      if 0 < queryEmb.length then (kw : ℝ) * 0.4 else (kw : ℝ) := by
  subst h
  unfold hybridScore
  dsimp only
  have h0 : (if 0 < queryEmb.length ∧ 0 < ([] : List ℝ).length ∧
      ([] : List ℝ).length = queryEmb.length
      then cosineSimilarity queryEmb [] else 0) = (0 : ℝ) := by
    rw [if_neg]
    simp
  rw [h0]
  split
  · norm_num
  · rfl

/-- Witness for the amended C2 at a concrete query embedding. -/
theorem c2_witness :
    hybridScore [1] [] (1 / 2) =
      if 0 < ([1] : List ℝ).length then ((1 / 2 : ℚ) : ℝ) * 0.4 else ((1 / 2 : ℚ) : ℝ) :=
  c2_empty_embedding_score [1] [] (1 / 2) rfl

/-- Witness for C10 at a concrete short page. -/
theorem c10_witness :
    batchLoop (fun _ => false) [['a']] 0 =
      ((batchLoop (fun _ => false) ([] : List (List Char)) 1).1 + 1,
       (batchLoop (fun _ => false) ([] : List (List Char)) 1).2) :=
  c10_short_pages_counted_without_chunks.1 (fun _ => false) 0 ['a'] [] rfl (by decide)

theorem natDigitsFuel_length_le :
    ∀ (fuel k n : Nat), n < 10 ^ k → (natDigitsFuel fuel n).length ≤ max k 1 := by
  intro fuel
  induction fuel with
  | zero =>
    intro k n _
    simp [natDigitsFuel]
  | succ f ih =>
    intro k n h
    simp only [natDigitsFuel]
    split
    · simp [le_max_right]
    · rename_i h10
      rw [List.length_append]
      have hk2 : 2 ≤ k := by
        by_contra hk
        have hle : 10 ^ k ≤ 10 ^ 1 := Nat.pow_le_pow_right (by norm_num) (by omega)
        simp at hle
        omega
      have h2 : n / 10 < 10 ^ (k - 1) := by
        rw [Nat.div_lt_iff_lt_mul (by norm_num)]
        calc n < 10 ^ k := h
        _ = 10 ^ (k - 1) * 10 := by
          rw [← pow_succ]
          congr 1
          omega
      have h3 := ih (k - 1) (n / 10) h2
      have h4 : max (k - 1) 1 = k - 1 := by omega
      rw [h4] at h3
      simp only [List.length_cons, List.length_nil]
      omega

theorem natDigits_length_le_four (n : Nat) (h : n ≤ 9999) : (natDigits n).length ≤ 4 := by
  have h10 : n < 10 ^ 4 := by norm_num; omega
  have := natDigitsFuel_length_le (n + 1) 4 n h10
  simpa [natDigits] using this

theorem pageMarker_length (n : Nat) : (pageMarker n).length = 8 + (natDigits n).length := by
  have h1 : ("[Page ".data).length = 6 := by decide
  have h2 : ("]".data).length = 1 := by decide
  simp only [pageMarker, List.length_append, h1, h2, List.length_cons, List.length_nil]
  omega

theorem windowsFuel_mem_length :
    ∀ (fuel : Nat) (t : List Char), ∀ w ∈ windowsFuel fuel t,
      w.length ≤ CHUNK_TARGET_SIZE + 200 := by
  intro fuel
  induction fuel with
  | zero => intro t w hw; simp [windowsFuel] at hw
  | succ f ih =>
    intro t w hw
    cases t with
    | nil => simp [windowsFuel] at hw
    | cons c rest =>
      simp only [windowsFuel] at hw
      rcases List.mem_cons.mp hw with rfl | hw2
      · exact List.length_take_le _ _
      · exact ih _ w hw2

set_option maxRecDepth 400000 in
/-- C4 counterexample: a 1700-character single-line page produces one
fragment of 1709 characters (page marker plus the whole trimmed
buffer), which exceeds twice the target size 2·800 = 1600; the code
only hard-splits fragments longer than 2000 characters. -/
theorem c4_counterexample :
    ((engineeringChunkPage (List.replicate 1700 'a') 1).all
      (fun c => c.text.length ≤ 2 * CHUNK_TARGET_SIZE)) = false := by
  decide

/-- C4 (amended): the hard-split threshold is 2000 characters (2.5×
the target size), with windows of `CHUNK_TARGET_SIZE + 200 = 1000`
characters; every returned fragment has at most 2000 characters (for
page numbers up to 9999, which bounds the page-marker prefix). -/
theorem c4_fragment_length_bound (t : List Char) (n : Nat) (h : n ≤ 9999) :
    (engineeringChunkPage t n).all (fun c => c.text.length ≤ 2000) = true := by
  rw [List.all_eq_true]
  intro c hc
  rw [decide_eq_true_eq]
  unfold engineeringChunkPage at hc
  split at hc
  · exact absurd hc (List.not_mem_nil c)
  · split at hc
    · rcases List.mem_singleton.mp hc with rfl
      dsimp only
      rw [List.length_append, pageMarker_length]
      have h1 := natDigits_length_le_four n h
      have h2 : (List.take 800 t).length ≤ 800 := List.length_take_le 800 t
      simp only [CHUNK_TARGET_SIZE]
      omega
    · rcases List.mem_flatMap.mp hc with ⟨c0, _, hmem⟩
      split at hmem
      · rcases List.mem_map.mp hmem with ⟨w, hw, rfl⟩
        have := windowsFuel_mem_length c0.text.length c0.text w hw
        simp only [CHUNK_TARGET_SIZE] at this
        dsimp only
        omega
      · rename_i hle
        rcases List.mem_singleton.mp hmem with rfl
        omega

/-- Witness for the amended C4 on a concrete page. -/
theorem c4_witness :
    (engineeringChunkPage "hello world page text".data 1).all
      (fun c => c.text.length ≤ 2000) = true :=
  c4_fragment_length_bound "hello world page text".data 1 (by norm_num)

theorem validIndices_cons_none (c : List Match) (rest : List (Option ℤ)) :
    validIndices c (none :: rest) = validIndices c rest := by
  simp [validIndices]

theorem validIndices_cons_invalid (c : List Match) (i : ℤ) (rest : List (Option ℤ))
    (hi : ¬(0 ≤ i ∧ i < (c.length : ℤ))) :
    validIndices c (some i :: rest) = validIndices c rest := by
  simp [validIndices, hi]

theorem validIndices_cons_valid (c : List Match) (i : ℤ) (rest : List (Option ℤ))
    (hi : 0 ≤ i ∧ i < (c.length : ℤ)) :
    validIndices c (some i :: rest) = i.toNat :: validIndices c rest := by
  simp [validIndices, hi]

theorem validIndices_length_congr (c c2 : List Match) (idxs : List (Option ℤ))
    (h : c.length = c2.length) : validIndices c idxs = validIndices c2 idxs := by
  unfold validIndices
  rw [h]

theorem validIndices_set (c : List Match) (k : Nat) (v : Match) (idxs : List (Option ℤ)) :
    validIndices (c.set k v) idxs = validIndices c idxs := by
  apply validIndices_length_congr
  rw [List.length_set]

theorem validIndices_lt (c : List Match) (idxs : List (Option ℤ)) :
    ∀ j ∈ validIndices c idxs, j < c.length := by
  intro j hj
  unfold validIndices at hj
  rcases List.mem_filterMap.mp hj with ⟨e, _, he⟩
  cases e with
  | none => simp at he
  | some i =>
    simp at he
    omega

theorem applyScoresGo_getD_not_mem :
    ∀ (js : List Nat) (cands : List Match) (pos j : Nat), j ∉ js →
      (applyScoresGo cands pos js).getD j defaultMatch = cands.getD j defaultMatch := by
  intro js
  induction js with
  | nil => intro cands pos j _; rfl
  | cons j2 js ih =>
    intro cands pos j hj
    have hj2 : j ∉ js := fun hm => hj (List.mem_cons_of_mem _ hm)
    have hne : j2 ≠ j := by
      intro he
      subst he
      exact hj (List.mem_cons_self j2 js)
    simp only [applyScoresGo]
    rw [ih _ _ _ hj2]
    rw [List.getD_eq_getElem?_getD, List.getElem?_set_ne hne, ← List.getD_eq_getElem?_getD]

theorem applyScores_resolve_nodup :
    ∀ (picked : List Nat) (cands : List Match) (pos : Nat), picked.Nodup →
      (∀ j ∈ picked, j < cands.length) →
      ((picked.map (fun j => (applyScoresGo cands pos picked).getD j defaultMatch)).map
        Match.similarity) =
        (List.range picked.length).map (fun i => syntheticScore (pos + i)) := by
  intro picked
  induction picked with
  | nil => intro cands pos _ _; rfl
  | cons j js ih =>
    intro cands pos hnd hlt
    rcases List.nodup_cons.mp hnd with ⟨hj, hnd2⟩
    have hjlt : j < cands.length := hlt j (List.mem_cons_self j js)
    simp only [applyScoresGo, List.map_cons, List.length_cons]
    rw [List.range_succ_eq_map]
    simp only [List.map_cons, List.map_map]
    congr 1
    · rw [applyScoresGo_getD_not_mem js _ _ j hj]
      rw [List.getD_eq_getElem?_getD, List.getElem?_set_self (by simpa using hjlt)]
      simp
    · have ih2 := ih
        (cands.set j { cands.getD j defaultMatch with similarity := syntheticScore pos })
        (pos + 1) hnd2
        (fun j2 hj2 => by
          rw [List.length_set]
          exact hlt j2 (List.mem_cons_of_mem _ hj2))
      rw [List.map_map] at ih2
      rw [ih2]
      apply List.map_congr_left
      intro i _
      simp only [Function.comp]
      congr 1
      omega

theorem rerankGo_characterization (topN : Nat) :
    ∀ (idxs : List (Option ℤ)) (cands : List Match) (acc : List Nat), acc.length < topN →
      rerankGo topN idxs cands acc =
        (applyScoresGo cands acc.length ((validIndices cands idxs).take (topN - acc.length)),
          acc ++ (validIndices cands idxs).take (topN - acc.length)) := by
  intro idxs
  induction idxs with
  | nil =>
    intro cands acc _
    simp [rerankGo, validIndices, applyScoresGo]
  | cons e rest ih =>
    intro cands acc h
    cases e with
    | none =>
      rw [show rerankGo topN (none :: rest) cands acc =
        rerankGo topN rest cands acc from rfl]
      rw [ih cands acc h, validIndices_cons_none]
    | some i =>
      by_cases hi : 0 ≤ i ∧ i < (cands.length : ℤ)
      · have hget : cands.get ⟨i.toNat, by omega⟩ =
            cands.getD i.toNat defaultMatch := by
          rw [List.getD_eq_getElem cands defaultMatch (by omega)]
          simp
        simp only [rerankGo, dif_pos hi]
        rw [validIndices_cons_valid cands i rest hi]
        have htake : topN - acc.length = (topN - acc.length - 1) + 1 := by omega
        rw [htake, List.take_succ_cons]
        simp only [applyScoresGo, syntheticScore]
        rw [hget]
        by_cases hfull : topN ≤ acc.length + 1
        · rw [if_pos (by simp; omega)]
          have h0 : topN - acc.length - 1 = 0 := by omega
          rw [h0, List.take_zero]
          simp only [applyScoresGo]
        · rw [if_neg (by simp; omega)]
          rw [ih _ _ (by simp; omega)]
          rw [validIndices_set]
          simp only [List.length_append, List.length_cons, List.length_nil,
            List.append_assoc, List.singleton_append, Nat.sub_sub]
      · simp only [rerankGo, dif_neg hi]
        rw [ih cands acc h, validIndices_cons_invalid cands i rest hi]

theorem syntheticScore_eq (i : Nat) :
    syntheticScore i = ((1000 : ℚ) - 50 * i) / 1000 := by
  unfold syntheticScore
  have h : ((1 : ℚ) - (i : ℚ) * (5 / 100)) * 1000 = (((1000 - 50 * i : ℤ) : ℚ)) := by
    push_cast
    ring
  rw [h, round_intCast]
  push_cast
  ring

/-- C5 counterexample: with three candidates, the parsed index array
`[0, 0]` and `k = 2`, the returned match list contains candidate 0
twice — duplicate indices are not ignored, contrary to the claim (both
entries alias the one mutated record for slot 0). -/
theorem c5_counterexample :
    ((geminiRerank (RerankResp.arr [some 0, some 0])
        [{ id := 0, content := ['a'], pageNumber := 1, similarity := 9 / 10 },
         { id := 1, content := ['b'], pageNumber := 1, similarity := 8 / 10 },
         { id := 2, content := ['c'], pageNumber := 1, similarity := 7 / 10 }] 2).map
      Match.id) = [0, 0] := by
  decide

/-- C5 (amended): when the LLM returns a JSON array of indices,
non-numeric and out-of-range entries are ignored, but duplicate
indices are kept: the first `k` valid index occurrences (with
multiplicity) become the final match set, resolved against the
candidate state after the loop's similarity mutations (a repeated
index aliases one record, which keeps the score of its last
occurrence); when the chosen indices are distinct, the entry at
position `i` carries the synthetic score `(1000 - 50·i)/1000`,
strictly decreasing in the position.  When no valid index exists the
step falls back to the original top-`k`. -/
theorem c5_rerank_valid_indices (candidates : List Match) (topN : Nat)
    (idxs : List (Option ℤ)) (h : 0 < topN) :
    (geminiRerank (RerankResp.arr idxs) candidates topN =
      if (validIndices candidates idxs).take topN = [] then candidates.take topN
      else ((validIndices candidates idxs).take topN).map
        (fun j => (applyScoresGo candidates 0
          ((validIndices candidates idxs).take topN)).getD j defaultMatch)) ∧
    (((validIndices candidates idxs).take topN).Nodup →
      (validIndices candidates idxs).take topN ≠ [] →
      (geminiRerank (RerankResp.arr idxs) candidates topN).map Match.similarity =
        (List.range ((validIndices candidates idxs).take topN).length).map
          syntheticScore) ∧
    (∀ i j : Nat, i < j → syntheticScore j < syntheticScore i) := by
  have hchar : geminiRerank (RerankResp.arr idxs) candidates topN =
      if (validIndices candidates idxs).take topN = [] then candidates.take topN
      else ((validIndices candidates idxs).take topN).map
        (fun j => (applyScoresGo candidates 0
          ((validIndices candidates idxs).take topN)).getD j defaultMatch) := by
    unfold geminiRerank
    dsimp only
    rw [rerankGo_characterization topN idxs candidates [] (by simpa using h)]
    simp only [List.length_nil, Nat.sub_zero, List.nil_append]
    by_cases hv : (validIndices candidates idxs).take topN = []
    · rw [hv]
      simp
    · rw [if_neg hv]
      have hpos : 0 < (((validIndices candidates idxs).take topN).map
          (fun j => (applyScoresGo candidates 0
            ((validIndices candidates idxs).take topN)).getD j defaultMatch)).length := by
        rw [List.length_map]
        exact List.length_pos.mpr hv
      rw [if_pos hpos]
  refine ⟨hchar, ?_, ?_⟩
  · intro hnd hne
    rw [hchar, if_neg hne]
    have hlt : ∀ j ∈ (validIndices candidates idxs).take topN, j < candidates.length :=
      fun j hj => validIndices_lt candidates idxs j (List.take_subset _ _ hj)
    have hres := applyScores_resolve_nodup ((validIndices candidates idxs).take topN)
      candidates 0 hnd hlt
    simp only [Nat.zero_add] at hres
    exact hres
  · intro i j hij
    rw [syntheticScore_eq i, syntheticScore_eq j]
    rw [div_lt_div_iff₀ (by norm_num) (by norm_num)]
    have hij2 : (i : ℚ) < (j : ℚ) := by exact_mod_cast hij
    nlinarith

/-- Witness for the amended C5 at concrete inputs: the characterization
at an empty index array, the distinct-index score shape at `[0]`, and
the strict descent of the synthetic score. -/
theorem c5_witness :
    (geminiRerank (RerankResp.arr []) [defaultMatch] 1 =
      if (validIndices [defaultMatch] ([] : List (Option ℤ))).take 1 = []
      then [defaultMatch].take 1
      else ((validIndices [defaultMatch] ([] : List (Option ℤ))).take 1).map
        (fun j => (applyScoresGo [defaultMatch] 0
          ((validIndices [defaultMatch] ([] : List (Option ℤ))).take 1)).getD
            j defaultMatch)) ∧
    (geminiRerank (RerankResp.arr [some 0]) [defaultMatch] 1).map Match.similarity =
      (List.range ((validIndices [defaultMatch] [some 0]).take 1).length).map
        syntheticScore ∧
    syntheticScore 1 < syntheticScore 0 :=
  ⟨(c5_rerank_valid_indices [defaultMatch] 1 [] (by norm_num)).1,
   (c5_rerank_valid_indices [defaultMatch] 1 [some 0] (by norm_num)).2.1
     (by decide) (by decide),
   (c5_rerank_valid_indices [defaultMatch] 1 [some 0] (by norm_num)).2.2 0 1 (by norm_num)⟩

theorem listSq_nonneg (a : List ℝ) : 0 ≤ (a.map (fun x => x * x)).sum := by
  apply List.sum_nonneg
  intro x hx
  rcases List.mem_map.mp hx with ⟨y, _, rfl⟩
  exact mul_self_nonneg y

theorem listDot_eq_finsetSum (a : List ℝ) : ∀ b : List ℝ, a.length = b.length →
    (List.zipWith (fun x y => x * y) a b).sum =
      ∑ i in Finset.range a.length, a.getD i 0 * b.getD i 0 := by
  induction a with
  | nil => intro b _; simp
  | cons x as ih =>
    intro b h
    cases b with
    | nil => simp at h
    | cons y bs =>
      simp only [List.zipWith_cons_cons, List.sum_cons, List.length_cons]
      rw [Finset.sum_range_succ']
      simp only [List.getD_cons_succ, List.getD_cons_zero]
      rw [ih bs (by simpa using h)]
      ring

theorem listSq_eq_finsetSum (a : List ℝ) :
    (a.map (fun x => x * x)).sum = ∑ i in Finset.range a.length, (a.getD i 0) ^ 2 := by
  induction a with
  | nil => simp
  | cons x as ih =>
    simp only [List.map_cons, List.sum_cons, List.length_cons]
    rw [Finset.sum_range_succ']
    simp only [List.getD_cons_succ, List.getD_cons_zero]
    rw [ih]
    ring

theorem list_cauchy (a b : List ℝ) (h : a.length = b.length) :
    ((List.zipWith (fun x y => x * y) a b).sum) ^ 2 ≤
      ((a.map (fun x => x * x)).sum) * ((b.map (fun x => x * x)).sum) := by
  rw [listDot_eq_finsetSum a b h, listSq_eq_finsetSum a, listSq_eq_finsetSum b, ← h]
  exact Finset.sum_mul_sq_le_sq_mul_sq _ _ _

theorem cosine_comm (a b : List ℝ) : cosineSimilarity a b = cosineSimilarity b a := by
  unfold cosineSimilarity
  by_cases hl : a.length = b.length
  · rw [if_neg (show ¬(a.length ≠ b.length) from by omega),
      if_neg (show ¬(b.length ≠ a.length) from by omega)]
    have hdot : (List.zipWith (fun x y => x * y) a b).sum =
        (List.zipWith (fun x y => x * y) b a).sum := by
      rw [List.zipWith_comm_of_comm _ (fun x y => mul_comm x y)]
    rw [hdot, mul_comm (Real.sqrt ((a.map (fun x => x * x)).sum))]
  · rw [if_pos hl, if_pos (show b.length ≠ a.length from by omega)]

theorem cosine_bounds (a b : List ℝ) :
    -1 ≤ cosineSimilarity a b ∧ cosineSimilarity a b ≤ 1 := by
  unfold cosineSimilarity
  by_cases hl : a.length = b.length
  · rw [if_neg (show ¬(a.length ≠ b.length) from by omega)]
    by_cases hd : Real.sqrt ((a.map (fun x => x * x)).sum) *
        Real.sqrt ((b.map (fun x => x * x)).sum) = 0
    · rw [if_pos hd]; norm_num
    · rw [if_neg hd]
      have hA := listSq_nonneg a
      have hdnn : 0 ≤ Real.sqrt ((a.map (fun x => x * x)).sum) *
          Real.sqrt ((b.map (fun x => x * x)).sum) :=
        mul_nonneg (Real.sqrt_nonneg _) (Real.sqrt_nonneg _)
      have hdpos : 0 < Real.sqrt ((a.map (fun x => x * x)).sum) *
          Real.sqrt ((b.map (fun x => x * x)).sum) := lt_of_le_of_ne hdnn (Ne.symm hd)
      have hcs := list_cauchy a b hl
      have habs : |(List.zipWith (fun x y => x * y) a b).sum| ≤
          Real.sqrt ((a.map (fun x => x * x)).sum) *
            Real.sqrt ((b.map (fun x => x * x)).sum) := by
        rw [← Real.sqrt_sq_eq_abs, ← Real.sqrt_mul hA]
        exact Real.sqrt_le_sqrt hcs
      have h1 : |(List.zipWith (fun x y => x * y) a b).sum /
          (Real.sqrt ((a.map (fun x => x * x)).sum) *
            Real.sqrt ((b.map (fun x => x * x)).sum))| ≤ 1 := by
        rw [abs_div, abs_of_pos hdpos]
        exact (div_le_one hdpos).mpr habs
      exact ⟨(abs_le.mp h1).1, (abs_le.mp h1).2⟩
  · rw [if_pos hl]; norm_num

theorem cosine_zero_vector (a b : List ℝ)
    (h : (∀ x ∈ a, x = (0 : ℝ)) ∨ (∀ x ∈ b, x = (0 : ℝ))) :
    cosineSimilarity a b = 0 := by
  unfold cosineSimilarity
  by_cases hl : a.length = b.length
  · rw [if_neg (show ¬(a.length ≠ b.length) from by omega)]
    have hnorm : Real.sqrt ((a.map (fun x => x * x)).sum) *
        Real.sqrt ((b.map (fun x => x * x)).sum) = 0 := by
      rcases h with h | h
      · have hz : (a.map (fun x => x * x)).sum = 0 := by
          apply List.sum_eq_zero
          intro x hx
          rcases List.mem_map.mp hx with ⟨y, hy, rfl⟩
          rw [h y hy]; ring
        rw [hz, Real.sqrt_zero, zero_mul]
      · have hz : (b.map (fun x => x * x)).sum = 0 := by
          apply List.sum_eq_zero
          intro x hx
          rcases List.mem_map.mp hx with ⟨y, hy, rfl⟩
          rw [h y hy]; ring
        rw [hz, Real.sqrt_zero, mul_zero]
    rw [if_pos hnorm]
  · rw [if_pos hl]

/-- C7: `cosineSimilarity` is symmetric, bounded in `[-1, 1]`, returns
0 when the two vectors have different lengths, and returns 0 when
either vector is all-zero (the denominator is then 0 and the explicit
guard fires). -/
theorem c7_cosine_properties :
    (∀ a b : List ℝ, cosineSimilarity a b = cosineSimilarity b a) ∧
    (∀ a b : List ℝ, -1 ≤ cosineSimilarity a b ∧ cosineSimilarity a b ≤ 1) ∧
    (∀ a b : List ℝ, a.length ≠ b.length → cosineSimilarity a b = 0) ∧
    (∀ a b : List ℝ, (∀ x ∈ a, x = (0 : ℝ)) ∨ (∀ x ∈ b, x = (0 : ℝ)) →
      cosineSimilarity a b = 0) := by
  refine ⟨cosine_comm, cosine_bounds, ?_, cosine_zero_vector⟩
  intro a b h
  unfold cosineSimilarity
  rw [if_pos h]

/-- Witness for C7: the all-zero vector and a dimension mismatch both
give similarity 0. -/
theorem c7_witness :
    cosineSimilarity [0, 0] [3, 4] = 0 ∧ cosineSimilarity [1] [1, 2] = 0 :=
  ⟨c7_cosine_properties.2.2.2 [0, 0] [3, 4]
    (Or.inl (by
      intro x hx
      rcases List.mem_cons.mp hx with rfl | hx2
      · rfl
      · rcases List.mem_singleton.mp hx2 with rfl; rfl)),
   c7_cosine_properties.2.2.1 [1] [1, 2] (by simp)⟩

end MetroCircuit
